import Mathlib

/-!
Verification of the AES-GCM core (`src/aead/gcm.rs`, `src/aead/aes/aes_nohw.rs`)
against its natural-language specification.

The Rust code is shallowly embedded: byte buffers become `List Nat` (each
element a byte value), machine integers become `Nat` with explicit `% 2 ^ 32`
or `% 2 ^ 64` where the source wraps, and fallible constructors return
`Except Unit`.  Routines that live outside the two source files (the external
assembly GHASH/AES primitives, `gcm_nohw`, `BitLength`, `Counter`,
`MAX_IN_OUT_LEN`) are modelled from the specification; each such definition
carries a doc comment starting with `Modelled from the spec:`.
-/

namespace Aead

/-- A byte buffer: one AES/GHASH block is 16 bytes. -/
abbrev Bytes := List Nat

/-- `BLOCK_LEN`: the AES / GHASH block length in bytes. -/
def BLOCK_LEN : Nat := 16

/-- `ZERO_BLOCK`: the all-zero 16-byte block. -/
def ZERO_BLOCK : Bytes := List.replicate BLOCK_LEN 0

/-- `constant_time::xor`: byte-wise exclusive-or of two (equal-length) buffers. -/
def constant_time.xor (a b : Bytes) : Bytes := List.zipWith Nat.xor a b

/-- `u32::from_be_bytes`: big-endian byte decoding. -/
def u32_from_be_bytes (l : Bytes) : Nat := l.foldl (fun acc b => acc * 256 + b) 0

/-- `u32::to_be_bytes`: big-endian byte encoding of a 32-bit value. -/
def u32_to_be_bytes (n : Nat) : Bytes :=
  [n / 2 ^ 24 % 256, n / 2 ^ 16 % 256, n / 2 ^ 8 % 256, n % 256]

/-- `u64::to_be_bytes` (`BitLength::to_be_bytes`): big-endian encoding of a
64-bit value. -/
def u64_to_be_bytes (n : Nat) : Bytes :=
  [n / 2 ^ 56 % 256, n / 2 ^ 48 % 256, n / 2 ^ 40 % 256, n / 2 ^ 32 % 256,
   n / 2 ^ 24 % 256, n / 2 ^ 16 % 256, n / 2 ^ 8 % 256, n % 256]

/-- The target architectures distinguished by `cfg(target_arch = ...)` in the
source; `other` stands for every architecture with no accelerated backend. -/
inductive Arch where
  | aarch64
  | arm
  | x86_64
  | x86
  | other
deriving DecidableEq

/-- Modelled from the spec: `cpu::Features`, the CPU-feature snapshot threaded
through every call (§2, §9); the flags are exactly those the two source files
query, plus the target architecture the `cfg` attributes dispatch on. -/
structure Features where
  arch : Arch
  pmull : Bool
  fxsr : Bool
  pclmulqdq : Bool
  neon : Bool
  avx : Bool
  movbe : Bool
deriving DecidableEq

/-- The `Implementation` enumeration from `gcm.rs` (backend tags). -/
inductive Implementation where
  | CLMUL
  | NEON
  | Fallback
deriving DecidableEq

/-- `detect_implementation` from `gcm.rs`: PMULL (arm/aarch64) gives CLMUL;
FXSR+PCLMULQDQ (x86/x86_64) gives CLMUL; NEON (arm/aarch64) gives NEON;
otherwise Fallback. -/
def detect_implementation (cpu_features : Features) : Implementation :=
  if (cpu_features.arch = Arch.aarch64 ∨ cpu_features.arch = Arch.arm) ∧
      cpu_features.pmull then
    Implementation.CLMUL
  else if (cpu_features.arch = Arch.x86_64 ∨ cpu_features.arch = Arch.x86) ∧
      cpu_features.fxsr ∧ cpu_features.pclmulqdq then
    Implementation.CLMUL
  else if (cpu_features.arch = Arch.aarch64 ∨ cpu_features.arch = Arch.arm) ∧
      cpu_features.neon then
    Implementation.NEON
  else
    Implementation.Fallback

/-- `has_avx_movbe` from `gcm.rs` (x86_64 only at use sites). -/
def has_avx_movbe (cpu_features : Features) : Bool :=
  cpu_features.avx && cpu_features.movbe

/-- The `u128` struct from `gcm.rs` (one `HTable` entry). -/
structure u128 where
  hi : Nat
  lo : Nat
deriving DecidableEq

/-- `HTABLE_LEN` from `gcm.rs`. -/
def HTABLE_LEN : Nat := 16

/-- The `HTable` struct from `gcm.rs`: 16 `u128` entries whose contents are
backend-specific. -/
structure HTable where
  Htable : List u128
deriving DecidableEq

/-- The `Key` struct from `gcm.rs`. -/
structure Key where
  h_table : HTable
deriving DecidableEq

/-- The `ContextInner` struct from `gcm.rs`: accumulator plus table. -/
structure ContextInner where
  Xi : Bytes
  Htable : HTable
deriving DecidableEq

/-- The `Context` struct from `gcm.rs`.  `aad_len` and `in_out_len` hold the
`BitLength<u64>` values (bit counts). -/
structure Context where
  inner : ContextInner
  aad_len : Nat
  in_out_len : Nat
  cpu_features : Features
deriving DecidableEq

/-- Modelled from the spec: the external GHASH backend routines (§6), which are
not part of the two source files (assembly, or the `gcm_nohw` module).  Each is
an unknown but fixed function of the table and accumulator (and, for the
`ghash` family, of the block sequence). -/
structure GhashBackends where
  gcm_gmult_clmul : HTable → Bytes → Bytes
  gcm_gmult_neon : HTable → Bytes → Bytes
  gcm_nohw_gmult : u128 → Bytes → Bytes
  gcm_ghash_avx : HTable → Bytes → List Bytes → Bytes
  gcm_ghash_clmul : HTable → Bytes → List Bytes → Bytes
  gcm_ghash_neon : HTable → Bytes → List Bytes → Bytes

/-- Modelled from the spec: `gcm_nohw::ghash` (the module is not under the two
source files).  Per §6 it "multiply-accumulates one or more 16-byte blocks into
the accumulator", and per §4.6/§8 it is functionally equivalent to repeated
single-block updates: each block is exclusive-ored in and then multiplied by H
(`gcm_nohw::gmult`). -/
def gcm_nohw.ghash (gmult_nohw : u128 → Bytes → Bytes) (h : u128) (xi : Bytes)
    (input : List Bytes) : Bytes :=
  input.foldl (fun x b => gmult_nohw h (constant_time.xor x b)) xi

/-- The single-block multiply dispatch inside `Context::update_block`:
CLMUL (any of the four accelerated architectures) uses `gcm_gmult_clmul`,
NEON uses `gcm_gmult_neon`, and the fallback uses `gcm_nohw::gmult` with
`Htable[0]`. -/
def gmult_dispatch (B : GhashBackends) (cpu_features : Features) (t : HTable)
    (xi : Bytes) : Bytes :=
  match detect_implementation cpu_features with
  | Implementation.CLMUL => B.gcm_gmult_clmul t xi
  | Implementation.NEON => B.gcm_gmult_neon t xi
  | Implementation.Fallback => B.gcm_nohw_gmult (t.Htable.getD 0 ⟨0, 0⟩) xi

/-- `Context::update_block` from `gcm.rs`: exclusive-or the block into `Xi`,
then multiply by H via the backend selected from the stored feature snapshot. -/
def Context.update_block (B : GhashBackends) (ctx : Context) (a : Bytes) : Context :=
  let xi := constant_time.xor ctx.inner.Xi a
  { ctx with
      inner := { ctx.inner with
                  Xi := gmult_dispatch B ctx.cpu_features ctx.inner.Htable xi } }

/-- `Context::update_blocks` from `gcm.rs`: one batched backend call over the
whole block sequence, dispatched on the re-derived backend selection (the AVX
variant when on x86_64 with CLMUL selected and AVX+MOVBE present). -/
def Context.update_blocks (B : GhashBackends) (ctx : Context) (input : List Bytes) :
    Context :=
  let xi := ctx.inner.Xi
  let t := ctx.inner.Htable
  let xi2 :=
    match detect_implementation ctx.cpu_features with
    | Implementation.CLMUL =>
        if ctx.cpu_features.arch = Arch.x86_64 ∧ has_avx_movbe ctx.cpu_features then
          B.gcm_ghash_avx t xi input
        else
          B.gcm_ghash_clmul t xi input
    | Implementation.NEON => B.gcm_ghash_neon t xi input
    | Implementation.Fallback =>
        gcm_nohw.ghash B.gcm_nohw_gmult (t.Htable.getD 0 ⟨0, 0⟩) xi input
  { ctx with inner := { ctx.inner with Xi := xi2 } }

/-- Modelled from the spec: `BitLength::<u64>::from_byte_len` (the `bits`
module is not under the two source files).  Per §7 it fails exactly when the
byte length "cannot be represented in the protocol's bit-length encoding",
i.e. when `byte_len * 8` overflows a 64-bit value. -/
def BitLength.from_byte_len (byte_len : Nat) : Except Unit Nat :=
  if byte_len * 8 < 2 ^ 64 then Except.ok (byte_len * 8) else Except.error ()

/-- Modelled from the spec: `aes_gcm::MAX_IN_OUT_LEN`, the "externally defined
constant" bounding the total plaintext/ciphertext length (§6).  The value is
GCM's limit of `2^32 - 2` whole blocks of 16 bytes; every statement below that
depends on it only needs that it is below `2 ^ 61`. -/
def aes_gcm.MAX_IN_OUT_LEN : Nat := (2 ^ 32 - 2) * 16

/-- Rust `slice::chunks(BLOCK_LEN)`, written with a structural fuel argument
(one unit of fuel per chunk; the list length is always enough) so that the
kernel can evaluate it: consecutive 16-byte chunks, the final one possibly
shorter (never empty). -/
def chunksGo : Nat → Bytes → List Bytes
  | _, [] => []
  | 0, _ :: _ => []
  | fuel + 1, a :: t => (a :: t).take BLOCK_LEN :: chunksGo fuel ((a :: t).drop BLOCK_LEN)

/-- Rust `slice::chunks(BLOCK_LEN)` over the whole list. -/
def chunks (l : Bytes) : List Bytes := chunksGo l.length l

/-- `chunksGo` does not depend on the fuel once it covers the list length. -/
theorem chunksGo_congr (f1 : Nat) : ∀ (f2 : Nat) (l : Bytes),
    l.length ≤ f1 → l.length ≤ f2 → chunksGo f1 l = chunksGo f2 l := by
  induction f1 with
  | zero =>
      intro f2 l h1 _
      rw [List.length_eq_zero.mp (Nat.le_zero.mp h1)]
      cases f2 <;> rfl
  | succ f1 ih =>
      intro f2 l h1 h2
      cases l with
      | nil => cases f2 <;> rfl
      | cons a t =>
          cases f2 with
          | zero => exact absurd h2 (by simp)
          | succ f2 =>
              simp only [chunksGo]
              rw [ih f2 ((a :: t).drop BLOCK_LEN)
                (by simp only [List.length_drop, List.length_cons, BLOCK_LEN] at h1 ⊢; omega)
                (by simp only [List.length_drop, List.length_cons, BLOCK_LEN] at h2 ⊢; omega)]

/-- The source-shaped unfolding equation for `chunks`. -/
theorem chunks_eq (l : Bytes) :
    chunks l = if l = [] then [] else l.take BLOCK_LEN :: chunks (l.drop BLOCK_LEN) := by
  cases l with
  | nil => rfl
  | cons a t =>
      rw [if_neg (List.cons_ne_nil a t)]
      show (a :: t).take BLOCK_LEN :: chunksGo t.length ((a :: t).drop BLOCK_LEN) = _
      rw [chunksGo_congr t.length ((a :: t).drop BLOCK_LEN).length ((a :: t).drop BLOCK_LEN)
        (by simp only [List.length_drop, List.length_cons, BLOCK_LEN]; omega) (Nat.le_refl _)]
      rfl

/-- Modelled from the spec: `polyfill::sliceutil::overwrite_at_start` (not
under the two source files): copy `src` over the start of `dst`, leaving the
rest of `dst` in place. -/
def overwrite_at_start (dst src : Bytes) : Bytes :=
  src.take dst.length ++ dst.drop src.length

/-- `Context::new` from `gcm.rs`: reject `in_out_len > MAX_IN_OUT_LEN`; convert
both byte lengths to bit lengths (fallibly); then fold every 16-byte AAD chunk
(zero-padded via `overwrite_at_start` on `ZERO_BLOCK`) into the zero
accumulator through `update_block`. -/
def Context.new (B : GhashBackends) (key : Key) (aad : Bytes) (in_out_len : Nat)
    (cpu_features : Features) : Except Unit Context :=
  if in_out_len > aes_gcm.MAX_IN_OUT_LEN then Except.error ()
  else
    match BitLength.from_byte_len aad.length, BitLength.from_byte_len in_out_len with
    | Except.ok aad_bits, Except.ok in_out_bits =>
        let ctx : Context :=
          { inner := { Xi := ZERO_BLOCK, Htable := key.h_table }
            aad_len := aad_bits
            in_out_len := in_out_bits
            cpu_features := cpu_features }
        Except.ok ((chunks aad).foldl
          (fun c ad => c.update_block B (overwrite_at_start ZERO_BLOCK ad)) ctx)
    | Except.error e, _ => Except.error e
    | _, Except.error e => Except.error e

/-- `Context::pre_finish` from `gcm.rs`: one more `update_block` on the block
made of the big-endian 64-bit AAD bit-length followed by the big-endian 64-bit
in/out bit-length, then the caller-supplied function applied to the resulting
raw `Xi` and the stored feature snapshot. -/
def Context.pre_finish {T : Type} (B : GhashBackends) (ctx : Context)
    (f : Bytes → Features → T) : T :=
  let ctx2 := ctx.update_block B
    (u64_to_be_bytes ctx.aad_len ++ u64_to_be_bytes ctx.in_out_len)
  f ctx2.inner.Xi ctx2.cpu_features

/-- `MAX_ROUNDS` (from the `aes` module): the AES-256 round count. -/
def MAX_ROUNDS : Nat := 14

/-- `WORD_SIZE` from `aes_nohw.rs` on a 64-bit target (`Word = usize`). -/
def WORD_SIZE : Nat := 8

/-- `BATCH_SIZE = WORD_SIZE / 2` from `aes_nohw.rs`. -/
def BATCH_SIZE : Nat := WORD_SIZE / 2

/-- `BLOCK_WORDS = 16 / WORD_SIZE` from `aes_nohw.rs`. -/
def BLOCK_WORDS : Nat := 16 / WORD_SIZE

/-- The `Batch` struct from `aes_nohw.rs`: eight words, bitsliced or (while
being filled) compact per-block form. -/
structure Batch where
  w : List Nat
deriving DecidableEq

/-- Modelled from the spec: `AES_KEY` (owned by the external AES layer, §3):
the conventional expanded round-key array (`MAX_ROUNDS + 1` entries, each one
round key in word form) plus the stored round count. -/
structure AES_KEY where
  rd_key : List (List Nat)
  rounds : Nat
deriving DecidableEq

/-- The `Schedule` struct from `aes_nohw.rs`. -/
structure Schedule where
  keys : List Batch
deriving DecidableEq

/-- The replication loop inside `Schedule::expand_round_keys`: set the same
word-form round key into every one of the `BATCH_SIZE` lanes of a fresh
all-zero batch (`aes_nohw_batch_set` is external, passed in as `set`). -/
def replicate_lanes (set : Batch → List Nat → Nat → Batch) (tmp : List Nat) : Batch :=
  (List.range BATCH_SIZE).foldl (fun r j => set r tmp j) { w := List.replicate 8 0 }

/-- `Schedule::expand_round_keys` from `aes_nohw.rs`: `array::from_fn` over all
`MAX_ROUNDS + 1` slots; each slot replicates round key `i` into every lane and
then transposes that batch once (`aes_nohw_transpose` is external, passed in as
`transpose`). -/
def Schedule.expand_round_keys (set : Batch → List Nat → Nat → Batch)
    (transpose : Batch → Batch) (key : AES_KEY) : Schedule :=
  { keys := (List.range (MAX_ROUNDS + 1)).map fun i =>
      transpose (replicate_lanes set (key.rd_key.getD i [])) }

/-- `polyfill::slice::as_chunks` specialized to 16-byte chunks: the whole
chunks and the remainder. -/
def as_chunks (l : Bytes) : List Bytes × Bytes :=
  if 16 ≤ l.length then
    let rest := as_chunks (l.drop 16)
    (l.take 16 :: rest.1, rest.2)
  else ([], l)
termination_by l.length
decreasing_by simp only [List.length_drop]; omega

/-- Modelled from the spec: `Counter::increment_by_less_safe` (the counter
module is not under the two source files).  Per §3 the low 32 bits are a
big-endian block counter incremented by `n`, wrapping silently; the other 12
bytes are untouched. -/
def increment_by_less_safe (c : Bytes) (n : Nat) : Bytes :=
  c.take 12 ++ u32_to_be_bytes ((u32_from_be_bytes (c.drop 12) + n) % 2 ^ 32)

/-- The batch loop of `ctr32_encrypt_within`: fill the `BATCH_SIZE` counter
blocks (12-byte prefix of the initial counter, low 32 bits `base + lane`,
wrapping), encrypt `todo = min BATCH_SIZE remaining` of them (`E` is one
application of the external bitsliced engine to one occupied lane, per the
§4.1 contract that unused lanes do not influence occupied ones), exclusive-or
them into the matching blocks, then advance `base` by `BATCH_SIZE` (wrapping)
and repeat while a full batch was processed. -/
def ctr32_loop (E : Bytes → Bytes) (pre12 : Bytes) (base : Nat)
    (blocks : List Bytes) : List Bytes :=
  let todo := min BATCH_SIZE blocks.length
  let ivs := (List.range BATCH_SIZE).map fun i => pre12 ++ u32_to_be_bytes ((base + i) % 2 ^ 32)
  let enc_ctrs := (ivs.take todo).map E
  let out := List.zipWith constant_time.xor (blocks.take todo) enc_ctrs
  if h : min BATCH_SIZE blocks.length < BATCH_SIZE then out
  else out ++ ctr32_loop E pre12 ((base + BATCH_SIZE) % 2 ^ 32) (blocks.drop BATCH_SIZE)
termination_by blocks.length
decreasing_by
  simp only [List.length_drop]
  simp only [BATCH_SIZE, WORD_SIZE] at *
  omega

/-- `ctr32_encrypt_within` from `aes_nohw.rs` (`E` stands for encrypting one
16-byte block under the schedule expanded once from `key`; the schedule
expansion and round function are the external primitives of §4.1/§6):
split the buffer past `src` into whole blocks (the remainder must be empty and
is left untouched), return unchanged if there are none, otherwise advance the
counter by the block count up front and run the batch loop seeded with the
initial counter's 12-byte prefix and low 32 bits. -/
def ctr32_encrypt_within (E : Bytes → Bytes) (in_out : Bytes) (src : Nat)
    (ctr : Bytes) : Bytes × Bytes :=
  let split := as_chunks (in_out.drop src)
  let input := split.1
  if input.isEmpty then (in_out, ctr)
  else
    let blocks_u32 := input.length
    let initial_ctr := ctr
    let ctr2 := increment_by_less_safe ctr blocks_u32
    let pre12 := initial_ctr.take 12
    let base := u32_from_be_bytes (initial_ctr.drop 12)
    (in_out.take src ++ (ctr32_loop E pre12 base input).flatten ++ split.2, ctr2)

/-! ## Concrete sample values used by witnesses -/

/-- A concrete backend bundle: every multiply routine is a concrete function. -/
def sampleBackends : GhashBackends :=
  ⟨fun _ b => b, fun _ b => b, fun _ b => b,
   fun _ xi _ => xi, fun _ xi _ => xi, fun _ xi _ => xi⟩

/-- A feature snapshot on an architecture with no accelerated backend. -/
def sampleFeatures : Features := ⟨Arch.other, false, false, false, false, false, false⟩

/-- A concrete key whose table is all zeros. -/
def sampleKey : Key := ⟨⟨List.replicate HTABLE_LEN ⟨0, 0⟩⟩⟩

/-- A freshly initialized concrete context. -/
def sampleContext : Context :=
  { inner := { Xi := ZERO_BLOCK, Htable := sampleKey.h_table }
    aad_len := 0
    in_out_len := 0
    cpu_features := sampleFeatures }

/-! ## Shared lemmas -/

/-- Folding `update_block` over any block list never changes the table, the
two lengths, or the feature snapshot. -/
theorem foldl_update_block_fields (B : GhashBackends) (ads : List Bytes) (ctx : Context) :
    (ads.foldl (fun c ad => c.update_block B ad) ctx).inner.Htable = ctx.inner.Htable ∧
    (ads.foldl (fun c ad => c.update_block B ad) ctx).aad_len = ctx.aad_len ∧
    (ads.foldl (fun c ad => c.update_block B ad) ctx).in_out_len = ctx.in_out_len ∧
    (ads.foldl (fun c ad => c.update_block B ad) ctx).cpu_features = ctx.cpu_features := by
  induction ads generalizing ctx with
  | nil => exact ⟨rfl, rfl, rfl, rfl⟩
  | cons a t ih => exact ih (ctx.update_block B a)

/-- With the fallback backend selected, a batched update is the fold of
single-block updates. -/
theorem update_blocks_fallback_foldl (B : GhashBackends) (input : List Bytes)
    (ctx : Context)
    (hfb : detect_implementation ctx.cpu_features = Implementation.Fallback) :
    ctx.update_blocks B input = input.foldl (fun c b => c.update_block B b) ctx := by
  induction input generalizing ctx with
  | nil => simp [Context.update_blocks, hfb, gcm_nohw.ghash]
  | cons b t ih =>
      have hfb2 : detect_implementation (ctx.update_block B b).cpu_features
          = Implementation.Fallback := hfb
      rw [List.foldl_cons, ← ih (ctx.update_block B b) hfb2]
      simp [Context.update_blocks, Context.update_block, hfb, gcm_nohw.ghash,
        gmult_dispatch]

/-- The AAD chunks cover the AAD exactly, in order. -/
theorem chunks_flatten (l : Bytes) : (chunks l).flatten = l := by
  generalize hn : l.length = n
  induction n using Nat.strong_induction_on generalizing l with
  | _ n ih =>
      rw [chunks_eq]
      by_cases h : l = []
      · simp [h]
      · rw [if_neg h, List.flatten_cons,
          ih (l.drop BLOCK_LEN).length (by subst hn; simp [BLOCK_LEN]; cases l <;> simp_all)
            (l.drop BLOCK_LEN) rfl]
        exact List.take_append_drop BLOCK_LEN l

/-- Every AAD chunk is at most one block long. -/
theorem chunks_length_le (l : Bytes) : ∀ c ∈ chunks l, c.length ≤ BLOCK_LEN := by
  generalize hn : l.length = n
  induction n using Nat.strong_induction_on generalizing l with
  | _ n ih =>
      rw [chunks_eq]
      by_cases h : l = []
      · simp [h]
      · rw [if_neg h]
        intro c hc
        rcases List.mem_cons.mp hc with hh | hh
        · subst hh; simp [List.length_take]
        · exact ih (l.drop BLOCK_LEN).length
            (by subst hn; simp [BLOCK_LEN]; cases l <;> simp_all)
            (l.drop BLOCK_LEN) rfl c hh

/-- Zero-padding a partial chunk: overwriting the start of the zero block is
appending zeros up to the block length. -/
theorem overwrite_zero_block (ad : Bytes) (h : ad.length ≤ BLOCK_LEN) :
    overwrite_at_start ZERO_BLOCK ad = ad ++ List.replicate (BLOCK_LEN - ad.length) 0 := by
  unfold overwrite_at_start ZERO_BLOCK
  rw [List.drop_replicate, List.take_of_length_le (by simpa [BLOCK_LEN] using h)]

/-! ## Claims -/

/-- C1: for every non-empty block sequence, one `update_blocks` call leaves
`Xi` in the same state as one `update_block` call per block in order, with the
fallback backend selected. -/
theorem update_blocks_eq_repeated_update_block (B : GhashBackends) (ctx : Context)
    (input : List Bytes) (hne : input ≠ [])
    (hfb : detect_implementation ctx.cpu_features = Implementation.Fallback) :
    (ctx.update_blocks B input).inner.Xi
      = (input.foldl (fun c b => c.update_block B b) ctx).inner.Xi := by
  rw [update_blocks_fallback_foldl B input ctx hfb]

theorem update_blocks_eq_repeated_update_block_witness :
    ([ZERO_BLOCK] ≠ ([] : List Bytes)) ∧
    detect_implementation sampleFeatures = Implementation.Fallback ∧
    (sampleContext.update_blocks sampleBackends [ZERO_BLOCK]).inner.Xi
      = ([ZERO_BLOCK].foldl (fun c b => c.update_block sampleBackends b)
          sampleContext).inner.Xi :=
  ⟨by decide, by decide,
    update_blocks_eq_repeated_update_block sampleBackends sampleContext [ZERO_BLOCK]
      (by decide) (by decide)⟩

/-- C4: `pre_finish` performs exactly one more accumulator update, on the block
made of the big-endian 64-bit AAD bit-length followed by the big-endian 64-bit
ciphertext bit-length — exclusive-ored into `Xi` and then multiplied by H like
any other update — and returns the caller-supplied function applied to the
resulting raw `Xi` and the stored feature snapshot. -/
theorem pre_finish_final_length_block (B : GhashBackends) (ctx : Context) {T : Type}
    (f : Bytes → Features → T) :
    ctx.pre_finish B f
      = f (gmult_dispatch B ctx.cpu_features ctx.inner.Htable
            (constant_time.xor ctx.inner.Xi
              (u64_to_be_bytes ctx.aad_len ++ u64_to_be_bytes ctx.in_out_len)))
          ctx.cpu_features ∧
    ctx.pre_finish B f
      = f ((ctx.update_block B
            (u64_to_be_bytes ctx.aad_len ++ u64_to_be_bytes ctx.in_out_len)).inner.Xi)
          ctx.cpu_features :=
  ⟨rfl, rfl⟩

/-- C8: `detect_implementation` is a total deterministic function of the
feature snapshot; it returns Fallback whenever no accelerated backend's
features are present, prefers CLMUL over NEON when both are available, and on
architectures without any accelerated backend always returns Fallback. -/
theorem detect_implementation_spec :
    (∀ f g : Features, f = g → detect_implementation f = detect_implementation g) ∧
    (∀ f : Features, f.arch = Arch.other →
      detect_implementation f = Implementation.Fallback) ∧
    (∀ f : Features, (f.arch = Arch.aarch64 ∨ f.arch = Arch.arm) →
      f.pmull = true → f.neon = true →
      detect_implementation f = Implementation.CLMUL) ∧
    (∀ f : Features,
      ¬ ((f.arch = Arch.aarch64 ∨ f.arch = Arch.arm) ∧ f.pmull = true) →
      ¬ ((f.arch = Arch.x86_64 ∨ f.arch = Arch.x86) ∧ f.fxsr = true ∧ f.pclmulqdq = true) →
      ¬ ((f.arch = Arch.aarch64 ∨ f.arch = Arch.arm) ∧ f.neon = true) →
      detect_implementation f = Implementation.Fallback) := by
  refine ⟨fun f g h => by rw [h], fun f h => ?_, fun f h1 h2 h3 => ?_,
    fun f h1 h2 h3 => ?_⟩
  · simp [detect_implementation, h]
  · unfold detect_implementation
    rw [if_pos ⟨h1, h2⟩]
  · unfold detect_implementation
    rw [if_neg h1, if_neg h2, if_neg h3]

theorem detect_implementation_spec_witness :
    detect_implementation ⟨Arch.other, true, true, true, true, true, true⟩
      = Implementation.Fallback ∧
    detect_implementation ⟨Arch.aarch64, true, false, false, true, false, false⟩
      = Implementation.CLMUL ∧
    detect_implementation ⟨Arch.x86, false, false, false, false, false, false⟩
      = Implementation.Fallback :=
  ⟨detect_implementation_spec.2.1 _ rfl,
   detect_implementation_spec.2.2.1 _ (Or.inl rfl) rfl rfl,
   detect_implementation_spec.2.2.2 _ (by simp) (by simp) (by simp)⟩

/-- C10: every hash-update operation — `update_block`, `update_blocks`, and the
AAD folding inside `Context::new` — mutates only the `Xi` accumulator: the
table contents, `aad_len`, `in_out_len`, and the stored feature snapshot are
unchanged. -/
theorem hash_updates_mutate_only_Xi (B : GhashBackends) (ctx : Context) (a : Bytes)
    (input : List Bytes) (ads : List Bytes) :
    ((ctx.update_block B a).inner.Htable = ctx.inner.Htable ∧
      (ctx.update_block B a).aad_len = ctx.aad_len ∧
      (ctx.update_block B a).in_out_len = ctx.in_out_len ∧
      (ctx.update_block B a).cpu_features = ctx.cpu_features) ∧
    ((ctx.update_blocks B input).inner.Htable = ctx.inner.Htable ∧
      (ctx.update_blocks B input).aad_len = ctx.aad_len ∧
      (ctx.update_blocks B input).in_out_len = ctx.in_out_len ∧
      (ctx.update_blocks B input).cpu_features = ctx.cpu_features) ∧
    ((ads.foldl (fun c ad => c.update_block B ad) ctx).inner.Htable = ctx.inner.Htable ∧
      (ads.foldl (fun c ad => c.update_block B ad) ctx).aad_len = ctx.aad_len ∧
      (ads.foldl (fun c ad => c.update_block B ad) ctx).in_out_len = ctx.in_out_len ∧
      (ads.foldl (fun c ad => c.update_block B ad) ctx).cpu_features = ctx.cpu_features) :=
  ⟨⟨rfl, rfl, rfl, rfl⟩, ⟨rfl, rfl, rfl, rfl⟩, foldl_update_block_fields B ads ctx⟩

/-- C5: `Context::new` starts from an all-zero accumulator and folds the AAD
into it chunk by chunk — consecutive 16-byte chunks, the final partial chunk
zero-padded — through the single-block update path, in order; an empty AAD
performs no updates. -/
theorem Context_new_folds_aad (B : GhashBackends) (key : Key) (aad : Bytes)
    (in_out_len : Nat) (cpu_features : Features) (ctx : Context)
    (hok : Context.new B key aad in_out_len cpu_features = Except.ok ctx) :
    (chunks aad).flatten = aad ∧
    ctx = (chunks aad).foldl
        (fun c ad => c.update_block B (ad ++ List.replicate (BLOCK_LEN - ad.length) 0))
        { inner := { Xi := ZERO_BLOCK, Htable := key.h_table }
          aad_len := aad.length * 8
          in_out_len := in_out_len * 8
          cpu_features := cpu_features } ∧
    (aad = [] → ctx =
      { inner := { Xi := ZERO_BLOCK, Htable := key.h_table }
        aad_len := 0
        in_out_len := in_out_len * 8
        cpu_features := cpu_features }) := by
  unfold Context.new BitLength.from_byte_len at hok
  by_cases h1 : in_out_len > aes_gcm.MAX_IN_OUT_LEN
  · rw [if_pos h1] at hok
    exact absurd hok (by simp)
  rw [if_neg h1] at hok
  by_cases h2 : aad.length * 8 < 2 ^ 64
  · rw [if_pos h2] at hok
    by_cases h3 : in_out_len * 8 < 2 ^ 64
    · rw [if_pos h3] at hok
      simp only [Except.ok.injEq] at hok
      have hfold : ctx = (chunks aad).foldl
          (fun c ad => c.update_block B (ad ++ List.replicate (BLOCK_LEN - ad.length) 0))
          { inner := { Xi := ZERO_BLOCK, Htable := key.h_table }
            aad_len := aad.length * 8
            in_out_len := in_out_len * 8
            cpu_features := cpu_features } := by
        rw [← hok]
        exact List.foldl_ext _ _ _ fun c ad had => by
          rw [overwrite_zero_block ad (chunks_length_le aad ad had)]
      refine ⟨chunks_flatten aad, hfold, fun haad => ?_⟩
      subst haad
      simpa [chunks] using hfold
    · rw [if_neg h3] at hok
      exact absurd hok (by simp)
  · rw [if_neg h2] at hok
    exact absurd hok (by simp)

/-- A 20-byte AAD: one full chunk and one 4-byte partial chunk. -/
def sampleAad : Bytes := List.range 20

/-- The context `Context::new` builds from `sampleAad`. -/
def sampleNewCtx : Context :=
  ((Context.new sampleBackends sampleKey sampleAad 5 sampleFeatures).toOption).getD
    sampleContext

theorem Context_new_folds_aad_witness :
    Context.new sampleBackends sampleKey sampleAad 5 sampleFeatures
      = Except.ok sampleNewCtx ∧
    ((chunks sampleAad).flatten = sampleAad ∧
      sampleNewCtx = (chunks sampleAad).foldl
          (fun c ad =>
            c.update_block sampleBackends (ad ++ List.replicate (BLOCK_LEN - ad.length) 0))
          { inner := { Xi := ZERO_BLOCK, Htable := sampleKey.h_table }
            aad_len := sampleAad.length * 8
            in_out_len := 5 * 8
            cpu_features := sampleFeatures } ∧
      (sampleAad = [] → sampleNewCtx =
        { inner := { Xi := ZERO_BLOCK, Htable := sampleKey.h_table }
          aad_len := 0
          in_out_len := 5 * 8
          cpu_features := sampleFeatures })) :=
  ⟨rfl,
    Context_new_folds_aad sampleBackends sampleKey sampleAad 5 sampleFeatures
      sampleNewCtx rfl⟩

/-- Success of `Context::new` is decided exactly by the two length checks. -/
theorem Context_new_ok_characterization (B : GhashBackends) (key : Key) (aad : Bytes)
    (n : Nat) (cpu_features : Features) :
    (∃ ctx, Context.new B key aad n cpu_features = Except.ok ctx)
      ↔ (n ≤ aes_gcm.MAX_IN_OUT_LEN ∧ aad.length * 8 < 2 ^ 64) := by
  have hmax : aes_gcm.MAX_IN_OUT_LEN * 8 < 2 ^ 64 := by decide
  unfold Context.new BitLength.from_byte_len
  by_cases h1 : n > aes_gcm.MAX_IN_OUT_LEN
  · rw [if_pos h1]
    simp
    omega
  rw [if_neg h1]
  have h3 : n * 8 < 2 ^ 64 := by
    have hle : n ≤ aes_gcm.MAX_IN_OUT_LEN := Nat.le_of_not_lt h1
    calc n * 8 ≤ aes_gcm.MAX_IN_OUT_LEN * 8 := Nat.mul_le_mul_right 8 hle
      _ < 2 ^ 64 := hmax
  by_cases h2 : aad.length * 8 < 2 ^ 64
  · rw [if_pos h2, if_pos h3]
    simp
    omega
  · rw [if_neg h2]
    simp
    omega

/-- C2 counterexample: with `in_out_len = 0`, which does not exceed
`MAX_IN_OUT_LEN`, a `2 ^ 61`-byte AAD still makes `Context::new` return the
opaque error (its bit length does not fit in 64 bits), so the error is not
returned exactly when `in_out_len` exceeds the configured maximum. -/
theorem Context_new_error_without_excess_in_out_len :
    Context.new sampleBackends sampleKey (List.replicate (2 ^ 61) 0) 0 sampleFeatures
      = Except.error () ∧
    ¬ (0 > aes_gcm.MAX_IN_OUT_LEN) := by
  have h : ¬ ((0 : Nat) ≤ aes_gcm.MAX_IN_OUT_LEN ∧
      (List.replicate (2 ^ 61) (0 : Nat)).length * 8 < 2 ^ 64) := by
    rw [List.length_replicate]
    norm_num
  constructor
  · cases hn : Context.new sampleBackends sampleKey (List.replicate (2 ^ 61) 0) 0
        sampleFeatures with
    | ok c =>
        exact absurd ((Context_new_ok_characterization sampleBackends sampleKey
          (List.replicate (2 ^ 61) 0) 0 sampleFeatures).mp ⟨c, hn⟩) h
    | error e => cases e; rfl
  · decide

/-- C2 (amended): `Context::new` returns the opaque error exactly when
`in_out_len` exceeds `MAX_IN_OUT_LEN` or the AAD byte length cannot be
represented as a 64-bit bit length; it succeeds at the boundary value
`in_out_len = MAX_IN_OUT_LEN` (for any AAD with representable bit length), and
these length checks are the only recoverable failure of the constructor. -/
theorem Context_new_ok_iff (B : GhashBackends) (key : Key) (aad : Bytes)
    (in_out_len : Nat) (cpu_features : Features) :
    ((∃ ctx, Context.new B key aad in_out_len cpu_features = Except.ok ctx)
      ↔ (in_out_len ≤ aes_gcm.MAX_IN_OUT_LEN ∧ aad.length * 8 < 2 ^ 64)) ∧
    (aad.length * 8 < 2 ^ 64 →
      ∃ ctx, Context.new B key aad aes_gcm.MAX_IN_OUT_LEN cpu_features
        = Except.ok ctx) :=
  ⟨Context_new_ok_characterization B key aad in_out_len cpu_features,
    fun h => (Context_new_ok_characterization B key aad aes_gcm.MAX_IN_OUT_LEN
      cpu_features).mpr ⟨Nat.le_refl _, h⟩⟩

theorem Context_new_ok_iff_witness :
    (([] : Bytes).length * 8 < 2 ^ 64) ∧
    (∃ ctx, Context.new sampleBackends sampleKey [] aes_gcm.MAX_IN_OUT_LEN
      sampleFeatures = Except.ok ctx) :=
  ⟨by decide,
    (Context_new_ok_iff sampleBackends sampleKey [] 0 sampleFeatures).2 (by decide)⟩

/-! ## CTR-mode lemmas -/

/-- Chunking a flattening of whole blocks recovers the blocks, with no
remainder. -/
theorem as_chunks_flatten_blocks :
    ∀ bs : List Bytes, (∀ b ∈ bs, b.length = BLOCK_LEN) →
      as_chunks bs.flatten = (bs, []) := by
  intro bs
  induction bs with
  | nil =>
      intro _
      rw [as_chunks]
      simp
  | cons b t ih =>
      intro h
      have hbl : b.length = BLOCK_LEN := h b (List.mem_cons_self b t)
      rw [as_chunks]
      rw [List.flatten_cons, if_pos (by simp [hbl, BLOCK_LEN])]
      rw [List.take_left' (by simp [hbl, BLOCK_LEN]), List.drop_left' (by simp [hbl, BLOCK_LEN])]
      rw [ih (fun x hx => h x (List.mem_cons_of_mem b hx))]

/-- When the byte count is a multiple of the block length, chunking leaves no
remainder and yields exactly `length / BLOCK_LEN` chunks. -/
theorem as_chunks_exact (l : Bytes) (h : l.length % 16 = 0) :
    (as_chunks l).2 = [] ∧ (as_chunks l).1.length = l.length / 16 := by
  generalize hn : l.length = n
  induction n using Nat.strong_induction_on generalizing l with
  | _ n ih =>
      subst hn
      rw [as_chunks]
      by_cases h16 : 16 ≤ l.length
      · rw [if_pos h16]
        have hdrop := ih (l.drop 16).length
          (by simp only [List.length_drop]; omega) (l.drop 16)
          (by simp only [List.length_drop]; omega) rfl
        refine ⟨hdrop.1, ?_⟩
        simp only [List.length_cons, hdrop.2, List.length_drop]
        omega
      · rw [if_neg h16]
        have hl : l = [] := List.length_eq_zero.mp (by omega)
        simp [hl]

/-- Big-endian 32-bit encode/decode round trip. -/
theorem u32_roundtrip (x : Nat) (h : x < 2 ^ 32) :
    u32_from_be_bytes (u32_to_be_bytes x) = x := by
  simp only [u32_from_be_bytes, u32_to_be_bytes, List.foldl_cons, List.foldl_nil]
  norm_num
  omega

/-- Splitting a zip with the index range at position `k`. -/
theorem zipWith_range_split {α β : Type} (f : α → Nat → β) (l : List α) (k : Nat)
    (hk : k ≤ l.length) :
    List.zipWith f l (List.range l.length)
      = List.zipWith f (l.take k) (List.range k)
        ++ List.zipWith (fun a j => f a (k + j)) (l.drop k) (List.range (l.length - k)) := by
  conv_lhs => rw [← List.take_append_drop k l]
  rw [List.length_append, List.length_take, List.length_drop,
    Nat.min_eq_left hk, List.range_add,
    List.zipWith_append _ _ _ _ _
      (by rw [List.length_take, Nat.min_eq_left hk, List.length_range]),
    List.zipWith_map_right]

/-- The keystream combination `ctr32_encrypt_within` applies to a whole-block
range: block `j` is exclusive-ored with the encryption of the counter whose
first 12 bytes come from the initial counter and whose low 32 bits are the
initial low word plus `j`, reduced modulo `2 ^ 32`. -/
def keystream_xor (E : Bytes → Bytes) (c : Bytes) (blocks : List Bytes) : List Bytes :=
  List.zipWith
    (fun b j => constant_time.xor b
      (E (c.take 12 ++ u32_to_be_bytes ((u32_from_be_bytes (c.drop 12) + j) % 2 ^ 32))))
    blocks (List.range blocks.length)

/-- The batch loop computes exactly the per-block keystream combination, with
the low 32 counter bits reduced modulo `2 ^ 32` at every block. -/
theorem ctr32_loop_eq_keystream (E : Bytes → Bytes) (pre12 : Bytes)
    (blocks : List Bytes) (base : Nat) :
    ctr32_loop E pre12 base blocks
      = List.zipWith
          (fun b j => constant_time.xor b
            (E (pre12 ++ u32_to_be_bytes ((base + j) % 2 ^ 32))))
          blocks (List.range blocks.length) := by
  generalize hn : blocks.length = n
  induction n using Nat.strong_induction_on generalizing blocks base with
  | _ n ih =>
      subst hn
      by_cases h : min BATCH_SIZE blocks.length < BATCH_SIZE
      · rw [ctr32_loop, dif_pos h]
        have hlt : blocks.length < BATCH_SIZE := by
          simp only [BATCH_SIZE, WORD_SIZE] at h ⊢
          omega
        rw [min_eq_right (Nat.le_of_lt hlt), List.take_length,
          ← List.map_take, List.take_range, min_eq_left (Nat.le_of_lt hlt),
          List.map_map, List.zipWith_map_right]
        rfl
      · rw [ctr32_loop, dif_neg h]
        have hge : BATCH_SIZE ≤ blocks.length := by
          simp only [BATCH_SIZE, WORD_SIZE] at h ⊢
          omega
        rw [min_eq_left hge]
        rw [ih (blocks.drop BATCH_SIZE).length
            (by simp only [List.length_drop, BATCH_SIZE, WORD_SIZE] at hge ⊢; omega)
            (blocks.drop BATCH_SIZE) ((base + BATCH_SIZE) % 2 ^ 32) rfl]
        rw [zipWith_range_split _ blocks BATCH_SIZE hge]
        rw [← List.map_take, List.take_range, min_self, List.map_map,
          List.zipWith_map_right, List.length_drop]
        congr 1
        congr 1
        funext b j
        rw [Nat.mod_add_mod, Nat.add_assoc]

/-- `ctr32_encrypt_within` on a range with no whole block returns the buffer
and counter unchanged. -/
theorem ctr32_encrypt_nil (E : Bytes → Bytes) (buf : Bytes) (src : Nat) (c : Bytes)
    (h : buf.drop src = []) :
    ctr32_encrypt_within E buf src c = (buf, c) := by
  simp only [ctr32_encrypt_within, h]
  rw [as_chunks]
  simp

/-- Characterization of `ctr32_encrypt_within` on a buffer made of a prefix
followed by whole blocks: the prefix is untouched, every block is
exclusive-ored with its keystream block, and the counter advances by the block
count. -/
theorem ctr32_encrypt_spec (E : Bytes → Bytes) (pre : Bytes) (blocks : List Bytes)
    (c : Bytes) (hb : ∀ b ∈ blocks, b.length = BLOCK_LEN) (hne : blocks ≠ []) :
    ctr32_encrypt_within E (pre ++ blocks.flatten) pre.length c
      = (pre ++ (keystream_xor E c blocks).flatten,
         increment_by_less_safe c blocks.length) := by
  simp only [ctr32_encrypt_within]
  rw [List.drop_left, as_chunks_flatten_blocks blocks hb]
  rw [if_neg (by simp [hne])]
  rw [List.take_left, ctr32_loop_eq_keystream, List.append_nil]
  rfl

/-- Incrementing the counter touches only the last four bytes. -/
theorem increment_take_12 (c : Bytes) (h : 12 ≤ c.length) (n : Nat) :
    (increment_by_less_safe c n).take 12 = c.take 12 := by
  unfold increment_by_less_safe
  rw [List.take_left' (by simp only [List.length_take]; omega)]

/-- The incremented counter's low 32-bit word. -/
theorem increment_low32 (c : Bytes) (h : 12 ≤ c.length) (n : Nat) :
    u32_from_be_bytes ((increment_by_less_safe c n).drop 12)
      = (u32_from_be_bytes (c.drop 12) + n) % 2 ^ 32 := by
  unfold increment_by_less_safe
  rw [List.drop_left' (by simp only [List.length_take]; omega)]
  exact u32_roundtrip _ (Nat.mod_lt _ (by norm_num))

/-- Keystream combination against a counter pre-advanced by `k` blocks. -/
theorem keystream_xor_increment (E : Bytes → Bytes) (c : Bytes) (k : Nat)
    (bs : List Bytes) (h : 12 ≤ c.length) :
    keystream_xor E (increment_by_less_safe c k) bs
      = List.zipWith
          (fun b j => constant_time.xor b
            (E (c.take 12
              ++ u32_to_be_bytes ((u32_from_be_bytes (c.drop 12) + (k + j)) % 2 ^ 32))))
          bs (List.range bs.length) := by
  unfold keystream_xor
  rw [increment_take_12 c h k]
  congr 1
  funext b j
  rw [increment_low32 c h k, Nat.mod_add_mod, Nat.add_assoc]

/-- The keystream combination of a whole block run splits at any block
boundary `k`, with the trailing part served by the counter advanced by `k`. -/
theorem keystream_xor_split (E : Bytes → Bytes) (c : Bytes) (blocks : List Bytes)
    (k : Nat) (hk : k ≤ blocks.length) (hc : 12 ≤ c.length) :
    keystream_xor E c blocks
      = keystream_xor E c (blocks.take k)
        ++ keystream_xor E (increment_by_less_safe c k) (blocks.drop k) := by
  rw [keystream_xor_increment E c k _ hc]
  unfold keystream_xor
  rw [List.length_take, Nat.min_eq_left hk, List.length_drop]
  exact zipWith_range_split _ blocks k hk

/-- Flattening a list of equal-length buffers. -/
theorem flatten_length_const (nBytes : Nat) :
    ∀ L : List Bytes, (∀ x ∈ L, x.length = nBytes) →
      L.flatten.length = nBytes * L.length := by
  intro L
  induction L with
  | nil => simp
  | cons a t ih =>
      intro h
      rw [List.flatten_cons, List.length_append, h a (List.mem_cons_self a t),
        ih (fun x hx => h x (List.mem_cons_of_mem a hx)), List.length_cons,
        Nat.mul_succ]
      omega

/-- The combined keystream output occupies exactly `BLOCK_LEN` bytes per
block. -/
theorem keystream_xor_length (E : Bytes → Bytes) (c : Bytes) (bs : List Bytes)
    (hE : ∀ b, (E b).length = BLOCK_LEN) (hb : ∀ b ∈ bs, b.length = BLOCK_LEN) :
    (keystream_xor E c bs).flatten.length = BLOCK_LEN * bs.length := by
  have hlen : (keystream_xor E c bs).length = bs.length := by
    unfold keystream_xor
    simp
  rw [flatten_length_const BLOCK_LEN _ ?_, hlen]
  intro x hx
  rw [List.mem_iff_getElem] at hx
  obtain ⟨i, hi, hxeq⟩ := hx
  subst hxeq
  unfold keystream_xor at hi ⊢
  rw [List.getElem_zipWith]
  simp only [constant_time.xor, List.length_zipWith, hE]
  rw [hb _ (List.getElem_mem _)]
  simp

/-- A 10-round (AES-128) conventional key whose round-key array is all zeros. -/
def sampleAesKey : AES_KEY := ⟨List.replicate 15 (List.replicate 4 0), 10⟩

/-- C7 counterexample: for a key with `rounds = 10` the expanded schedule holds
`MAX_ROUNDS + 1 = 15` batches, not `rounds + 1 = 11`: `expand_round_keys` is
driven by the fixed `MAX_ROUNDS` bound, not by the key's stored round count. -/
theorem expand_round_keys_not_rounds_plus_one :
    (Schedule.expand_round_keys (fun b _ _ => b) id sampleAesKey).keys.length = 15 ∧
    sampleAesKey.rounds + 1 ≠ 15 := by
  constructor
  · simp [Schedule.expand_round_keys, MAX_ROUNDS]
  · decide

/-- C7 (amended): `expand_round_keys` produces an array of `MAX_ROUNDS + 1`
batches, one per entry of the key's conventional round-key array (independent
of the stored round count; encryption reads only the first `rounds + 1`); the
batch in slot `i` is built by replicating round key `i`'s word-form into all
`BATCH_SIZE` lanes and then transposing that batch exactly once; the expansion
is deterministic and has no failure modes. -/
theorem expand_round_keys_spec (set : Batch → List Nat → Nat → Batch)
    (transpose : Batch → Batch) (key : AES_KEY) :
    (Schedule.expand_round_keys set transpose key).keys.length = MAX_ROUNDS + 1 ∧
    (∀ i, i < MAX_ROUNDS + 1 →
      (Schedule.expand_round_keys set transpose key).keys.getD i { w := [] }
        = transpose (replicate_lanes set (key.rd_key.getD i []))) := by
  constructor
  · simp [Schedule.expand_round_keys]
  · intro i hi
    simp [Schedule.expand_round_keys, List.getD_eq_getElem?_getD,
      List.getElem?_range hi]

theorem expand_round_keys_spec_witness :
    (Schedule.expand_round_keys (fun b _ _ => b) id sampleAesKey).keys.length
      = MAX_ROUNDS + 1 ∧
    (Schedule.expand_round_keys (fun b _ _ => b) id sampleAesKey).keys.getD 0 { w := [] }
      = id (replicate_lanes (fun b _ _ => b) (sampleAesKey.rd_key.getD 0 [])) :=
  ⟨(expand_round_keys_spec (fun b _ _ => b) id sampleAesKey).1,
    (expand_round_keys_spec (fun b _ _ => b) id sampleAesKey).2 0 (by decide)⟩

/-- A concrete block-encryption function returning an all-zero block. -/
def sampleE : Bytes → Bytes := fun _ => List.replicate BLOCK_LEN 0

/-- Two concrete whole blocks. -/
def sampleBlocks : List Bytes := [List.replicate 16 1, List.replicate 16 2]

/-- A concrete counter whose low 32-bit word is `2 ^ 32 - 1`. -/
def sampleCtr : Bytes := List.replicate 12 0 ++ [255, 255, 255, 255]

/-- C6: over a non-empty whole-block range, the returned counter is the input
counter advanced by exactly the number of complete blocks — and the advanced
counter is computed from the initial counter alone, not from any encryption
output or buffer write (the result counter is the same for every block
encryption function). -/
theorem ctr32_advances_counter_once (E : Bytes → Bytes) (in_out : Bytes)
    (src : Nat) (c : Bytes)
    (hmod : (in_out.drop src).length % 16 = 0)
    (hne : (in_out.drop src).length ≠ 0) :
    (ctr32_encrypt_within E in_out src c).2
      = increment_by_less_safe c ((in_out.length - src) / 16) ∧
    ∀ E2 : Bytes → Bytes,
      (ctr32_encrypt_within E2 in_out src c).2
        = (ctr32_encrypt_within E in_out src c).2 := by
  have hsnd : ∀ E1 : Bytes → Bytes,
      (ctr32_encrypt_within E1 in_out src c).2
        = increment_by_less_safe c ((in_out.length - src) / 16) := by
    intro E1
    obtain ⟨hrem, hcount⟩ := as_chunks_exact (in_out.drop src) hmod
    have hne1 : (as_chunks (in_out.drop src)).1 ≠ [] := by
      intro hnil
      rw [hnil] at hcount
      simp only [List.length_nil] at hcount
      omega
    simp only [ctr32_encrypt_within]
    rw [if_neg (by simp [hne1])]
    rw [hcount, List.length_drop]
  exact ⟨hsnd E, fun E2 => (hsnd E2).trans (hsnd E).symm⟩

theorem ctr32_advances_counter_once_witness :
    ((List.replicate 32 (0 : Nat)).drop 0).length % 16 = 0 ∧
    ((List.replicate 32 (0 : Nat)).drop 0).length ≠ 0 ∧
    (ctr32_encrypt_within sampleE (List.replicate 32 0) 0 sampleCtr).2
      = increment_by_less_safe sampleCtr (((List.replicate 32 (0 : Nat)).length - 0) / 16) :=
  ⟨by decide, by decide,
    (ctr32_advances_counter_once sampleE (List.replicate 32 0) 0 sampleCtr
      (by decide) (by decide)).1⟩

/-- C9: the low 32 bits of successive counter blocks are `(base + lane index)`
reduced modulo `2 ^ 32`, and the per-batch base advance also wraps: even when
the initial low word plus the block count exceeds `2 ^ 32`, the call totally
computes every block's keystream from the wrapped value `(base + j) % 2 ^ 32`
instead of aborting. -/
theorem ctr32_low32_wraps (E : Bytes → Bytes) (pre : Bytes) (blocks : List Bytes)
    (c : Bytes) (hb : ∀ b ∈ blocks, b.length = BLOCK_LEN) (hne : blocks ≠ [])
    (hoverflow : 2 ^ 32 ≤ u32_from_be_bytes (c.drop 12) + blocks.length) :
    (ctr32_encrypt_within E (pre ++ blocks.flatten) pre.length c).1
      = pre ++ (List.zipWith
          (fun b j => constant_time.xor b
            (E (c.take 12
              ++ u32_to_be_bytes ((u32_from_be_bytes (c.drop 12) + j) % 2 ^ 32))))
          blocks (List.range blocks.length)).flatten := by
  rw [ctr32_encrypt_spec E pre blocks c hb hne]
  rfl

theorem ctr32_low32_wraps_witness :
    (∀ b ∈ sampleBlocks, b.length = BLOCK_LEN) ∧
    sampleBlocks ≠ [] ∧
    2 ^ 32 ≤ u32_from_be_bytes (sampleCtr.drop 12) + sampleBlocks.length ∧
    (ctr32_encrypt_within sampleE ([] ++ sampleBlocks.flatten) ([] : Bytes).length
        sampleCtr).1
      = [] ++ (List.zipWith
          (fun b j => constant_time.xor b
            (sampleE (sampleCtr.take 12
              ++ u32_to_be_bytes ((u32_from_be_bytes (sampleCtr.drop 12) + j) % 2 ^ 32))))
          sampleBlocks (List.range sampleBlocks.length)).flatten :=
  ⟨by decide, by decide, by decide,
    ctr32_low32_wraps sampleE [] sampleBlocks sampleCtr (by decide) (by decide)
      (by decide)⟩

/-- C3: batch-boundary independence of `ctr32_encrypt_within` — encrypting all
`N` blocks in one call with counter `C` writes the same buffer contents as
encrypting blocks `[0, k)` with counter `C` and then blocks `[k, N)` with
counter `C + k`, for every split point `k`. -/
theorem ctr32_split_batch_independence (E : Bytes → Bytes) (pre : Bytes)
    (blocks : List Bytes) (c : Bytes) (k : Nat)
    (hE : ∀ b, (E b).length = BLOCK_LEN)
    (hb : ∀ b ∈ blocks, b.length = BLOCK_LEN)
    (hc : c.length = BLOCK_LEN)
    (hk : k ≤ blocks.length) :
    (ctr32_encrypt_within E
        ((ctr32_encrypt_within E (pre ++ (blocks.take k).flatten) pre.length c).1
          ++ (blocks.drop k).flatten)
        (pre.length + BLOCK_LEN * k)
        (increment_by_less_safe c k)).1
      = (ctr32_encrypt_within E (pre ++ blocks.flatten) pre.length c).1 := by
  have hc12 : 12 ≤ c.length := by rw [hc, BLOCK_LEN]; omega
  by_cases hbl : blocks = []
  · subst hbl
    have hk0 : k = 0 := Nat.le_zero.mp hk
    subst hk0
    simp only [List.take_nil, List.drop_nil, List.flatten_nil, List.append_nil,
      Nat.mul_zero, Nat.add_zero]
    rw [ctr32_encrypt_nil E pre pre.length c
      (List.drop_eq_nil_of_le (Nat.le_refl _))]
    rw [ctr32_encrypt_nil E pre pre.length (increment_by_less_safe c 0)
      (List.drop_eq_nil_of_le (Nat.le_refl _))]
  · by_cases hk0 : k = 0
    · subst hk0
      simp only [List.take_zero, List.flatten_nil, List.append_nil, List.drop_zero,
        Nat.mul_zero, Nat.add_zero]
      rw [ctr32_encrypt_nil E pre pre.length c
        (List.drop_eq_nil_of_le (Nat.le_refl _))]
      rw [ctr32_encrypt_spec E pre blocks (increment_by_less_safe c 0) hb hbl,
        ctr32_encrypt_spec E pre blocks c hb hbl]
      rw [keystream_xor_split E c blocks 0 (Nat.zero_le _) hc12]
      simp [keystream_xor]
    · by_cases hkN : k = blocks.length
      · have htake : blocks.take k = blocks := by rw [hkN, List.take_length]
        have hdropn : blocks.drop k = [] := by
          rw [hkN]
          exact List.drop_eq_nil_of_le (Nat.le_refl _)
        rw [htake, hdropn, List.flatten_nil, List.append_nil]
        rw [ctr32_encrypt_spec E pre blocks c hb hbl]
        have hlen : (pre ++ (keystream_xor E c blocks).flatten).length
            = pre.length + BLOCK_LEN * k := by
          rw [List.length_append, keystream_xor_length E c blocks hE hb, hkN]
        rw [ctr32_encrypt_nil E _ _ _ (List.drop_eq_nil_of_le (Nat.le_of_eq hlen))]
      · have hklt : k < blocks.length := Nat.lt_of_le_of_ne hk hkN
        have htk : blocks.take k ≠ [] := by
          intro hnil
          have := congrArg List.length hnil
          simp only [List.length_take, Nat.min_eq_left hk, List.length_nil] at this
          exact hk0 this
        have hdk : blocks.drop k ≠ [] := by
          intro hnil
          rw [List.drop_eq_nil_iff] at hnil
          omega
        rw [ctr32_encrypt_spec E pre (blocks.take k) c
          (fun b hb2 => hb b (List.take_subset k blocks hb2)) htk]
        have hlen : (pre ++ (keystream_xor E c (blocks.take k)).flatten).length
            = pre.length + BLOCK_LEN * k := by
          rw [List.length_append,
            keystream_xor_length E c _ hE (fun b hb2 => hb b (List.take_subset k blocks hb2)),
            List.length_take, Nat.min_eq_left hk]
        rw [show pre.length + BLOCK_LEN * k
            = (pre ++ (keystream_xor E c (blocks.take k)).flatten).length from hlen.symm]
        rw [ctr32_encrypt_spec E (pre ++ (keystream_xor E c (blocks.take k)).flatten)
          (blocks.drop k) (increment_by_less_safe c k)
          (fun b hb2 => hb b (List.drop_subset k blocks hb2)) hdk]
        rw [ctr32_encrypt_spec E pre blocks c hb hbl]
        rw [keystream_xor_split E c blocks k hk hc12]
        rw [List.flatten_append, ← List.append_assoc]

theorem ctr32_split_batch_independence_witness :
    (∀ b, (sampleE b).length = BLOCK_LEN) ∧
    (∀ b ∈ sampleBlocks, b.length = BLOCK_LEN) ∧
    sampleCtr.length = BLOCK_LEN ∧
    1 ≤ sampleBlocks.length ∧
    (ctr32_encrypt_within sampleE
        ((ctr32_encrypt_within sampleE ([] ++ (sampleBlocks.take 1).flatten)
            ([] : Bytes).length sampleCtr).1
          ++ (sampleBlocks.drop 1).flatten)
        (([] : Bytes).length + BLOCK_LEN * 1)
        (increment_by_less_safe sampleCtr 1)).1
      = (ctr32_encrypt_within sampleE ([] ++ sampleBlocks.flatten)
          ([] : Bytes).length sampleCtr).1 :=
  ⟨fun b => by simp [sampleE, BLOCK_LEN], by decide, by decide, by decide,
    ctr32_split_batch_independence sampleE [] sampleBlocks sampleCtr 1
      (fun b => by simp [sampleE, BLOCK_LEN]) (by decide) (by decide) (by decide)⟩

end Aead
